import Mathlib

/-!
Shallow embedding of the word-discovery pipeline (`word_discovery.py`):
the KenLM n-gram binary decoder (`KenlmNgrams.read_ngrams`), the PMI filter
(`filter_ngrams`), the trie tokenizer (`SimpleTrie`), and the backward
validator (`filter_vocab`), together with theorems settling the spec claims.

Python strings are modelled as `List Char`, Python ints as `ℤ`/`ℕ`, the
float arithmetic of the PMI computation as exact `ℚ` arithmetic, and
`math.log` as `Real.log`.  Python dicts are modelled as association lists
without duplicate keys; `dict.get`/assignment are `dictGet`/`updateCount`.
-/

set_option maxHeartbeats 1000000
set_option maxRecDepth 10000

/-- Model of a Python (unicode) string: its list of code points. -/
abbrev Str := List Char

/-- Model of Python `d.get(k)` on an association list (first match wins;
the lists we build have no duplicate keys, as Python dicts cannot). -/
def dictGet {α : Type} : List (Str × α) → Str → Option α
  | [], _ => none
  | (k, v) :: rest, key => if k = key then some v else dictGet rest key

/-- Model of Python slicing `sent[a:b]` (with clamping at both ends,
for the nonnegative indices the code uses). -/
def pySlice (sent : Str) (a b : ℕ) : Str :=
  (sent.drop a).take (b - a)

/-! ## Binary n-gram record decoding (`KenlmNgrams.read_ngrams`) -/

/-- Value of a little-endian byte list (each entry one byte, `< 256`). -/
def leNat : List ℕ → ℕ
  | [] => 0
  | b :: rest => b + 256 * leNat rest

/-- Little-endian byte list of length `k` for the value `u` (mod `256^k`).
Modelled from the spec: the inverse record layout of section 6 / 4.1, used
to state the round-trip property of the decoder; the repository itself only
reads this format (it is written by the external KenLM counter). -/
def natLE : ℕ → ℕ → List ℕ
  | 0, _ => []
  | k + 1, u => u % 256 :: natLE k (u / 256)

/-- Model of `struct.unpack('i', s)[0]`: a native(little)-endian signed
4-byte integer from the first 4 bytes. -/
def unpack_i (bs : List ℕ) : ℤ :=
  if leNat (bs.take 4) < 2 ^ 31 then (leNat (bs.take 4) : ℤ)
  else (leNat (bs.take 4) : ℤ) - 2 ^ 32

/-- Model of `struct.unpack('l', s)[0]` (LP64): a native(little)-endian
signed 8-byte integer from the first 8 bytes. -/
def unpack_l (bs : List ℕ) : ℤ :=
  if leNat (bs.take 8) < 2 ^ 63 then (leNat (bs.take 8) : ℤ)
  else (leNat (bs.take 8) : ℤ) - 2 ^ 64

/-- Encoder for one 4-byte token-index field (two's-complement, little
endian).  Modelled from the spec (section 6): test-harness inverse of
`unpack_i`. -/
def encode_i (x : ℤ) : List ℕ :=
  natLE 4 (x % 2 ^ 32).toNat

/-- Encoder for the trailing 8-byte signed count field.  Modelled from the
spec (section 6): test-harness inverse of `unpack_l`. -/
def encode_l (x : ℤ) : List ℕ :=
  natLE 8 (x % 2 ^ 64).toNat

/-- Bytes of one n-gram record: `order` 4-byte indices then an 8-byte
count.  Modelled from the spec (section 4.1 record layout). -/
def encode_record (idxs : List ℤ) (n : ℤ) : List ℕ :=
  (idxs.map encode_i).flatten ++ encode_l n

/-- The index list of a record: `[self.unpack('i', s[j*4:(j+1)*4]) for j in
range(self.order)]`. -/
def decode_indices (order : ℕ) (s : List ℕ) : List ℤ :=
  (List.range order).map fun j => unpack_i ((s.drop (j * 4)).take 4)

/-- The textual n-gram of a record:
`''.join([self.chars[j] for j in c if j > 2])`. -/
def decode_chars (chars : List Str) (idxs : List ℤ) : Str :=
  ((idxs.filter fun j => 2 < j).map fun j => chars.getD j.toNat []).flatten

/-- Full decoding of one raw record `s`: its textual n-gram and its count
`self.unpack('l', s[-8:])`. -/
def decode_record (chars : List Str) (order : ℕ) (s : List ℕ) : Str × ℤ :=
  (decode_chars chars (decode_indices order s),
   unpack_l (s.drop (s.length - 8)))

/-- Model of the `ngrams()` generator: repeatedly read
`size_per_item = order * 4 + 8` bytes and yield each full record; a short
read ends the stream. -/
def read_records (order : ℕ) (stream : List ℕ) : List (List ℕ) :=
  if h : order * 4 + 8 ≤ stream.length then
    stream.take (order * 4 + 8) :: read_records order (stream.drop (order * 4 + 8))
  else []
termination_by stream.length
decreasing_by simp [List.length_drop]; omega

/-- Model of the dict update
`self.ngrams[j][key] = self.ngrams[j].get(key, 0) + n`. -/
def updateCount : List (Str × ℤ) → Str → ℤ → List (Str × ℤ)
  | [], k, n => [(k, n)]
  | (k', v) :: rest, k, n =>
    if k' = k then (k', v + n) :: rest else (k', v) :: updateCount rest k n

/-- The inner accumulation loop of `read_ngrams`:
`for j in range(len(c)): self.ngrams[j][c[:j+1]] += n`. -/
def prefixUpdate (ms : List (List (Str × ℤ))) (c : Str) (n : ℤ) :
    List (List (Str × ℤ)) :=
  (List.range c.length).foldl
    (fun acc j => acc.set j (updateCount (acc.getD j []) (c.take (j + 1)) n)) ms

/-- The mutable state of `KenlmNgrams`: the per-order count maps
`self.ngrams` and the accumulator `self.total`. -/
structure NgramState where
  ngrams : List (List (Str × ℤ))
  total : ℤ
  deriving DecidableEq

/-- Processing of one raw record by the `read_ngrams` loop body: decode the
count, drop the record if below `min_count`, otherwise decode the text and
accumulate every prefix count and the total. -/
def processRecord (chars : List Str) (order : ℕ) (min_count : ℤ)
    (st : NgramState) (s : List ℕ) : NgramState :=
  let n := unpack_l (s.drop (s.length - 8))
  if min_count ≤ n then
    let c := decode_chars chars (decode_indices order s)
    { ngrams := prefixUpdate st.ngrams c n, total := st.total + n }
  else st

/-- Model of `KenlmNgrams.read_ngrams`: fold the loop body over all full
records of the byte stream, starting from `order` empty maps and total 0. -/
def read_ngrams (chars : List Str) (order : ℕ) (min_count : ℤ)
    (stream : List ℕ) : NgramState :=
  (read_records order stream).foldl (processRecord chars order min_count)
    ⟨List.replicate order [], 0⟩

/-! ## PMI filtering (`filter_ngrams`) -/

/-- Model of `ngrams[j].get(key, total)`: the count of `key` in the order-`j`
map, defaulting to `total` when the key is absent.  The counts are read as
exact rationals (the Python code computes in floats). -/
def lookupD (ngrams : List (List (Str × ℚ))) (j : ℕ) (key : Str) (total : ℚ) : ℚ :=
  (dictGet (ngrams.getD j []) key).getD total

/-- Model of Python `min` over a (nonempty, in all uses) list. -/
def listMin : List ℚ → ℚ
  | [] => 0
  | x :: xs => xs.foldl min x

/-- The list of denominators examined for the order-`i` entry `w`: for each
split point `j` in `0..i-1`, the product
`ngrams[j].get(w[:j+1], total) * ngrams[i-j-1].get(w[j+1:], total)`. -/
def pmiDenoms (ngrams : List (List (Str × ℚ))) (total : ℚ) (i : ℕ) (w : Str) :
    List ℚ :=
  (List.range i).map fun j =>
    lookupD ngrams j (w.take (j + 1)) total *
      lookupD ngrams (i - j - 1) (w.drop (j + 1)) total

/-- The minimum PMI of the order-`i` entry `(w, v)`:
`min([total * v / (...) for j in range(i)])`. -/
def pmiOf (ngrams : List (List (Str × ℚ))) (total : ℚ) (i : ℕ) (w : Str) (v : ℚ) : ℚ :=
  listMin ((pmiDenoms ngrams total i w).map fun d => total * v / d)

/-- The iteration order `range(order - 1, 0, -1)` of the outer loop of
`filter_ngrams`: the indices `order-1, ..., 1`. -/
def downTo (order : ℕ) : List ℕ :=
  (List.range' 1 (order - 1)).reverse

/-- One step of the inner loop of `filter_ngrams`: the entry `(w, v)` of the
order-`i` map is added to the output set exactly when
`math.log(pmi) >= min_pmi[i]` (`math.log` modelled as `Real.log`). -/
def processEntry (ngrams : List (List (Str × ℚ))) (total : ℚ) (min_pmi : List ℝ)
    (i : ℕ) (s : Set Str) (wv : Str × ℚ) : Set Str :=
  s ∪ {w | w = wv.1 ∧ Real.log (pmiOf ngrams total i wv.1 wv.2) ≥ min_pmi.getD i 0}

/-- Model of `filter_ngrams(ngrams, total, min_pmi)` with `min_pmi` already
a per-order list: for `i` from `order-1` down to `1`, every entry of the
order-`i` map whose log-min-PMI reaches `min_pmi[i]` joins the output set
(`order = len(ngrams)`). -/
def filter_ngrams (ngrams : List (List (Str × ℚ))) (total : ℚ)
    (min_pmi : List ℝ) : Set Str :=
  (downTo ngrams.length).foldl
    (fun s i => (ngrams.getD i []).foldl (processEntry ngrams total min_pmi i) s) ∅

/-! ## The trie tokenizer (`SimpleTrie`) -/

/-- Model of the nested-dict trie: `term` is the presence of the
`self.end = True` key (the word stored under it is never read), and
`children` the character-keyed sub-dicts. -/
inductive SimpleTrie where
  | mk : Bool → List (Char × SimpleTrie) → SimpleTrie

/-- Whether the node carries the terminal marker. -/
def SimpleTrie.term : SimpleTrie → Bool
  | .mk b _ => b

/-- The character-keyed children of the node. -/
def SimpleTrie.children : SimpleTrie → List (Char × SimpleTrie)
  | .mk _ cs => cs

/-- Child lookup `_[c]` (`c in _` is its `isSome`). -/
def childGet : List (Char × SimpleTrie) → Char → Option SimpleTrie
  | [], _ => none
  | (c', t) :: rest, c => if c' = c then some t else childGet rest c

/-- Replacement (or insertion) of the child under `c`. -/
def childSet : List (Char × SimpleTrie) → Char → SimpleTrie → List (Char × SimpleTrie)
  | [], c, t => [(c, t)]
  | (c', t') :: rest, c, t =>
    if c' = c then (c', t) :: rest else (c', t') :: childSet rest c t

/-- Model of `SimpleTrie.add_word`: walk the word, creating missing empty
nodes, and mark the final node terminal. -/
def SimpleTrie.add_word : SimpleTrie → Str → SimpleTrie
  | .mk _ cs, [] => .mk true cs
  | .mk b cs, c :: w =>
    let child := (childGet cs c).getD (.mk false [])
    .mk b (childSet cs c (child.add_word w))

/-- The inner loop of `tokenize`: starting at absolute position `pos` with
current furthest terminal `e`, follow `sent[pos:]` down the trie; every
terminal node reached strictly beyond `e` advances `e`; a missing child
stops the scan.  Returns the final `e`. -/
def scanFrom : SimpleTrie → List Char → ℕ → ℕ → ℕ
  | _, [], _, e => e
  | t, c :: cs, pos, e =>
    match childGet t.children c with
    | none => e
    | some t' =>
      scanFrom t' cs (pos + 1) (if t'.term = true ∧ e < pos + 1 then pos + 1 else e)

/-- The outer loop of `tokenize` over positions `i` (with `rest = sent[i:]`):
when `i` reaches `end`, the fragment `sent[start:end]` is emitted and the
window restarts at `i`; then the trie is scanned from `i` to extend `end`.
After the loop the final fragment `sent[start:end]` is emitted. -/
def tokenizeAux (root : SimpleTrie) (sent : Str) :
    List Char → ℕ → ℕ → ℕ → List Str → List Str
  | [], _, start, e, res => res ++ [pySlice sent start e]
  | c :: rest, i, start, e, res =>
    if i = e then
      tokenizeAux root sent rest (i + 1) i
        (scanFrom root (c :: rest) i (i + 1)) (res ++ [pySlice sent start e])
    else
      tokenizeAux root sent rest (i + 1) start (scanFrom root (c :: rest) i e) res

/-- Model of `SimpleTrie.tokenize`: the loop starting from
`start, end = 0, 1`. -/
def SimpleTrie.tokenize (root : SimpleTrie) (sent : Str) : List Str :=
  tokenizeAux root sent sent 0 0 1 []

/-! ## Backward validation (`filter_vocab`) -/

/-- Model of `filter_vocab(candidates, ngrams, order)`: keep a candidate of
length `< 3` unconditionally; of length in `[3, order]` when it is itself an
accepted n-gram; of length `> order` when every sliding window of length
`order` is accepted. -/
def filter_vocab (candidates : List (Str × ℕ)) (ngrams : List Str)
    (order : ℕ) : List (Str × ℕ) :=
  candidates.filter fun p =>
    if p.1.length < 3 then true
    else if p.1.length ≤ order ∧ p.1 ∈ ngrams then true
    else if order < p.1.length then
      decide (∀ k < p.1.length + 1 - order, (p.1.drop k).take order ∈ ngrams)
    else false

/-! ## Concrete instances used by claim theorems and witnesses -/

/-- Trie holding exactly the words the, there, here. -/
def trieTHH : SimpleTrie :=
  (((SimpleTrie.mk false []).add_word ['t','h','e']).add_word
      ['t','h','e','r','e']).add_word ['h','e','r','e']

/-- Trie holding exactly the words the, there. -/
def trieTT : SimpleTrie :=
  ((SimpleTrie.mk false []).add_word ['t','h','e']).add_word
    ['t','h','e','r','e']

/-- A five-entry vocabulary table (indices 0..2 are the sentinels). -/
def chars6 : List Str := [['a'], ['b'], ['c'], ['d'], ['e']]

/-- A one-entry-beyond-sentinels vocabulary table for order-1 records. -/
def chars4 : List Str := [[], [], [], ['a']]

/-- The raw bytes of the order-1 record with token index 3 and count 5. -/
def rec4 : List ℕ := encode_record [3] 5

/-- Order-2 count maps where the bigram ab occurs as often as the product
of its parts predicts (PMI exactly 1). -/
def ngrams2 : List (List (Str × ℚ)) := [[(['a'], 2), (['b'], 2)], [(['a','b'], 4)]]

/-- Order-2 count maps holding only the unigram a. -/
def ngrams0 : List (List (Str × ℚ)) := [[(['a'], 1)], []]

/-- Order-2 count maps in which the stored count of the unigram a is 0. -/
def ngramsZ : List (List (Str × ℚ)) := [[(['a'], 0), (['b'], 1)], [(['a','b'], 1)]]

/-- Order-1 count maps with a single positive unigram count. -/
def ngramsPos : List (List (Str × ℚ)) := [[(['a'], 1)]]

/-! ## Generic helper lemmas -/

theorem getD_set_self {α : Type} (l : List α) (i : ℕ) (x d : α) (h : i < l.length) :
    (l.set i x).getD i d = x := by
  induction l generalizing i with
  | nil => simp at h
  | cons a t ih =>
    cases i with
    | zero => simp [List.set, List.getD]
    | succ j => simpa [List.set, List.getD] using ih j (by simpa using h)

theorem getD_set_ne {α : Type} (l : List α) (i j : ℕ) (x d : α) (h : i ≠ j) :
    (l.set i x).getD j d = l.getD j d := by
  induction l generalizing i j with
  | nil => simp [List.set]
  | cons a t ih =>
    cases i with
    | zero =>
      cases j with
      | zero => exact absurd rfl h
      | succ j' => simp [List.set, List.getD]
    | succ i' =>
      cases j with
      | zero => simp [List.set, List.getD]
      | succ j' => simpa [List.set, List.getD] using ih i' j' (by omega)

theorem getD_mem_or {α : Type} (l : List α) (j : ℕ) (d : α) :
    l.getD j d ∈ l ∨ l.getD j d = d := by
  induction l generalizing j with
  | nil => simp
  | cons a t ih =>
    cases j with
    | zero => left; simp [List.getD]
    | succ j' =>
      rcases ih j' with h | h
      · left; simp [List.getD] at h ⊢; right; simpa using h
      · right; simpa [List.getD] using h

/-! ## Claim C7: clean end-of-stream handling of the record reader -/

/-- Claim C7: for every byte stream, the record reader returns exactly the
`⌊length / (order*4+8)⌋` leading full records (the `k`-th being the bytes
`[k*size, k*size+size)`); as soon as a read yields fewer bytes than one
full record it stops cleanly, so truncated or malformed trailing bytes
(stream length not a multiple of the record size) are dropped as
end-of-stream and never cause an error — the reader is a total function. -/
theorem claim_C7_truncated_stream_is_clean_eof (order : ℕ) (stream : List ℕ) :
    read_records order stream =
      (List.range (stream.length / (order * 4 + 8))).map
        (fun k => (stream.drop (k * (order * 4 + 8))).take (order * 4 + 8)) := by
  generalize hL : stream.length = L
  induction L using Nat.strong_induction_on generalizing stream with
  | _ L ih =>
    subst hL
    rw [read_records]
    by_cases h : order * 4 + 8 ≤ stream.length
    · rw [dif_pos h]
      have hlen : (stream.drop (order * 4 + 8)).length = stream.length - (order * 4 + 8) := by
        simp [List.length_drop]
      have hrec := ih (stream.drop (order * 4 + 8)).length (by rw [hlen]; omega)
        (stream.drop (order * 4 + 8)) rfl
      rw [hrec, hlen]
      have hdiv : stream.length / (order * 4 + 8) =
          (stream.length - (order * 4 + 8)) / (order * 4 + 8) + 1 := by
        have h1 : stream.length - (order * 4 + 8) + (order * 4 + 8) = stream.length := by
          omega
        conv_lhs => rw [← h1]
        rw [Nat.add_div_right _ (by omega)]
      rw [hdiv, List.range_succ_eq_map, List.map_cons, List.map_map]
      congr 1
      · simp
      · apply List.map_congr_left
        intro k _
        simp only [Function.comp_apply, List.drop_drop]
        congr 2
        simp [Nat.succ_mul]
        omega
    · rw [dif_neg h]
      have : stream.length / (order * 4 + 8) = 0 := Nat.div_eq_of_lt (by omega)
      simp [this]

/-! ## Lemmas about the count-map update -/

theorem dictGet_updateCount_self (m : List (Str × ℤ)) (k : Str) (n : ℤ) :
    dictGet (updateCount m k n) k = some ((dictGet m k).getD 0 + n) := by
  induction m with
  | nil => simp [updateCount, dictGet]
  | cons p rest ih =>
    obtain ⟨k', v⟩ := p
    by_cases h : k' = k
    · subst h
      simp [updateCount, dictGet]
    · simp [updateCount, dictGet, h, ih]

theorem dictGet_updateCount_ne (m : List (Str × ℤ)) (k key : Str) (n : ℤ)
    (h : key ≠ k) :
    dictGet (updateCount m k n) key = dictGet m key := by
  induction m with
  | nil => simp [updateCount, dictGet, Ne.symm h]
  | cons p rest ih =>
    obtain ⟨k', v⟩ := p
    by_cases h' : k' = k
    · subst h'
      simp [updateCount, dictGet, Ne.symm h]
    · simp only [updateCount, if_neg h']
      by_cases h'' : k' = key <;> simp [dictGet, h'', ih]

theorem foldl_set_length (step : List (List (Str × ℤ)) → ℕ → List (List (Str × ℤ)))
    (hstep : ∀ acc j, (step acc j).length = acc.length)
    (l : List ℕ) : ∀ ms : List (List (Str × ℤ)), (l.foldl step ms).length = ms.length := by
  induction l with
  | nil => intro ms; rfl
  | cons j t ih => intro ms; rw [List.foldl_cons, ih, hstep]

theorem prefixUpdate_aux_getD (c : Str) (n : ℤ) (L : ℕ) :
    ∀ (ms : List (List (Str × ℤ))), L ≤ ms.length → ∀ j : ℕ,
      ((List.range L).foldl
        (fun acc j => acc.set j (updateCount (acc.getD j []) (c.take (j + 1)) n)) ms).getD j [] =
      if j < L then updateCount (ms.getD j []) (c.take (j + 1)) n else ms.getD j [] := by
  induction L with
  | zero => intro ms _ j; simp
  | succ L ih =>
    intro ms hL j
    rw [List.range_succ, List.foldl_append, List.foldl_cons, List.foldl_nil]
    set prev := (List.range L).foldl
      (fun acc j => acc.set j (updateCount (acc.getD j []) (c.take (j + 1)) n)) ms with hprev
    have hplen : prev.length = ms.length := by
      rw [hprev]
      exact foldl_set_length _ (fun acc j => List.length_set acc j _) _ ms
    have hprevL : prev.getD L [] = ms.getD L [] := by
      rw [hprev, ih ms (by omega) L]
      simp
    by_cases hj : j = L
    · subst hj
      rw [getD_set_self _ _ _ _ (by omega), hprevL]
      simp
    · rw [getD_set_ne _ _ _ _ _ (Ne.symm hj), hprev, ih ms (by omega) j]
      by_cases hjL : j < L
      · rw [if_pos hjL, if_pos (by omega)]
      · rw [if_neg hjL, if_neg (by omega)]

theorem prefixUpdate_getD (ms : List (List (Str × ℤ))) (c : Str) (n : ℤ)
    (h : c.length ≤ ms.length) (j : ℕ) :
    (prefixUpdate ms c n).getD j [] =
      if j < c.length then updateCount (ms.getD j []) (c.take (j + 1)) n
      else ms.getD j [] :=
  prefixUpdate_aux_getD c n c.length ms h j

/-! ## Claim C4: per-record accumulation of the decoder -/

/-- Claim C4: a record kept by the decoder (count `n ≥ min_count`, decoded
string `c` of length `L`) adds exactly `n` to `OrderCountMap[j]` under the
key `c[0:j+1]` for every `j` in `0..L-1`, leaves every other key of every
map unchanged, and adds `n` to the running total; a record with
`n < min_count` changes nothing at all. -/
theorem claim_C4_decoder_prefix_accumulation (chars : List Str) (order : ℕ)
    (min_count : ℤ) (st : NgramState) (s : List ℕ) (n : ℤ) (c : Str)
    (hn : n = unpack_l (s.drop (s.length - 8)))
    (hc : c = decode_chars chars (decode_indices order s))
    (hord : st.ngrams.length = order) :
    (min_count ≤ n → c.length ≤ order →
      (processRecord chars order min_count st s).total = st.total + n ∧
      (∀ j < c.length,
        dictGet ((processRecord chars order min_count st s).ngrams.getD j [])
            (c.take (j + 1)) =
          some ((dictGet (st.ngrams.getD j []) (c.take (j + 1))).getD 0 + n)) ∧
      (∀ (j : ℕ) (key : Str), c.length ≤ j ∨ key ≠ c.take (j + 1) →
        dictGet ((processRecord chars order min_count st s).ngrams.getD j []) key =
          dictGet (st.ngrams.getD j []) key)) ∧
    (n < min_count → processRecord chars order min_count st s = st) := by
  subst hn hc
  constructor
  · intro hkeep hlen
    have hpr : processRecord chars order min_count st s =
        { ngrams := prefixUpdate st.ngrams
            (decode_chars chars (decode_indices order s))
            (unpack_l (s.drop (s.length - 8))),
          total := st.total + unpack_l (s.drop (s.length - 8)) } := by
      simp only [processRecord, if_pos hkeep]
    rw [hpr]
    refine ⟨rfl, ?_, ?_⟩
    · intro j hj
      rw [prefixUpdate_getD st.ngrams _ _ (by omega) j, if_pos hj,
        dictGet_updateCount_self]
    · intro j key hkey
      rw [prefixUpdate_getD st.ngrams _ _ (by omega) j]
      rcases hkey with hj | hne
      · rw [if_neg (by omega)]
      · by_cases hj : j < (decode_chars chars (decode_indices order s)).length
        · rw [if_pos hj, dictGet_updateCount_ne _ _ _ _ hne]
        · rw [if_neg hj]
  · intro hdrop
    simp only [processRecord, if_neg (not_le.mpr hdrop)]

/-- Witness for claim C4 at a concrete kept record: order 1, vocabulary
entry 3 being the character a, record `rec4` with count 5 and `min_count`
1, starting from one empty map and total 0. -/
theorem claim_C4_witness :
    (processRecord chars4 1 1 ⟨[[]], 0⟩ rec4).total = 0 + 5 ∧
    dictGet ((processRecord chars4 1 1 ⟨[[]], 0⟩ rec4).ngrams.getD 0 []) ['a'] =
      some ((dictGet (([] : List (Str × ℤ))) ['a']).getD 0 + 5) ∧
    dictGet ((processRecord chars4 1 1 ⟨[[]], 0⟩ rec4).ngrams.getD 0 []) ['b'] =
      dictGet (([] : List (Str × ℤ))) ['b'] := by
  have h := claim_C4_decoder_prefix_accumulation chars4 1 1 ⟨[[]], 0⟩ rec4 5 ['a']
    (by decide) (by decide) rfl
  have hk := h.1 (by decide) (by decide)
  refine ⟨hk.1, ?_, ?_⟩
  · have := hk.2.1 0 (by decide)
    simpa using this
  · have := hk.2.2 0 ['b'] (by right; decide)
    simpa using this

/-! ## Lemmas about the byte-level codec (claim C6) -/

theorem natLE_length (k u : ℕ) : (natLE k u).length = k := by
  induction k generalizing u with
  | zero => rfl
  | succ k ih => simp [natLE, ih]

theorem leNat_natLE (k u : ℕ) : leNat (natLE k u) = u % 256 ^ k := by
  induction k generalizing u with
  | zero => simp [natLE, leNat, Nat.mod_one]
  | succ k ih =>
    rw [natLE, leNat, ih, pow_succ']
    exact (Nat.mod_mul).symm

theorem unpack_i_encode_i (x : ℤ) (h1 : -2 ^ 31 ≤ x) (h2 : x < 2 ^ 31) :
    unpack_i (encode_i x) = x := by
  unfold unpack_i encode_i
  rw [List.take_of_length_le (by rw [natLE_length]), leNat_natLE]
  have hmod : ((x % 2 ^ 32).toNat : ℤ) = x % 2 ^ 32 :=
    Int.toNat_of_nonneg (Int.emod_nonneg _ (by norm_num))
  have hpow : (256 : ℕ) ^ 4 = 2 ^ 32 := by norm_num
  rw [hpow]
  split <;> omega

theorem unpack_l_encode_l (x : ℤ) (h1 : -2 ^ 63 ≤ x) (h2 : x < 2 ^ 63) :
    unpack_l (encode_l x) = x := by
  unfold unpack_l encode_l
  rw [List.take_of_length_le (by rw [natLE_length]), leNat_natLE]
  have hmod : ((x % 2 ^ 64).toNat : ℤ) = x % 2 ^ 64 :=
    Int.toNat_of_nonneg (Int.emod_nonneg _ (by norm_num))
  have hpow : (256 : ℕ) ^ 8 = 2 ^ 64 := by norm_num
  rw [hpow]
  split <;> omega

theorem flatten_chunk (chunks : List (List ℕ)) (tail : List ℕ)
    (h : ∀ ch ∈ chunks, ch.length = 4) :
    ∀ j < chunks.length,
      ((chunks.flatten ++ tail).drop (j * 4)).take 4 = chunks.getD j [] := by
  induction chunks generalizing tail with
  | nil => intro j hj; simp at hj
  | cons ch rest ih =>
    intro j hj
    have hch : ch.length = 4 := h ch (by simp)
    rw [List.flatten_cons, List.append_assoc]
    cases j with
    | zero =>
      simp only [Nat.zero_mul, List.drop_zero, List.getD]
      exact List.take_left' hch
    | succ j' =>
      have harith : (j' + 1) * 4 = 4 + j' * 4 := by ring
      rw [harith, ← List.drop_drop, List.drop_left' hch]
      simpa [List.getD] using ih tail (fun ch2 hc => h ch2 (by simp [hc])) j'
        (by simpa using hj)

theorem encode_i_length (x : ℤ) : (encode_i x).length = 4 := by
  rw [encode_i, natLE_length]

theorem flatten_encode_length (idxs : List ℤ) :
    (idxs.map encode_i).flatten.length = 4 * idxs.length := by
  rw [List.length_flatten, List.map_map]
  have hrep : List.map (List.length ∘ encode_i) idxs =
      List.replicate idxs.length 4 := by
    rw [List.eq_replicate_iff]
    constructor
    · simp
    · intro b hb
      rcases List.mem_map.mp hb with ⟨x, _, hx⟩
      rw [← hx]
      exact encode_i_length x
  rw [hrep, List.sum_replicate]
  simp [Nat.mul_comm]

theorem encode_record_length (idxs : List ℤ) (n : ℤ) :
    (encode_record idxs n).length = 4 * idxs.length + 8 := by
  rw [encode_record, List.length_append, flatten_encode_length, encode_l,
    natLE_length]

/-! ## Claim C6: interpretation of record bytes -/

/-- Claim C6: decoding the record bytes built from any list of `order`
token indices (each in signed 4-byte range) and any count (in signed 8-byte
range) recovers exactly those indices — each leading 4-byte chunk read as a
little(native)-endian signed integer — and the decoded text concatenates
the vocabulary entries of exactly the indices `> 2` (every index `≤ 2` is
excluded), so the decoded string may be shorter than `order` characters;
the count is read from the trailing 8 bytes. -/
theorem claim_C6_sentinel_skipping_decode (chars : List Str) (idxs : List ℤ)
    (n : ℤ) (order : ℕ) (ho : idxs.length = order)
    (hx : ∀ x ∈ idxs, -2 ^ 31 ≤ x ∧ x < 2 ^ 31)
    (hn1 : -2 ^ 63 ≤ n) (hn2 : n < 2 ^ 63) :
    decode_indices order (encode_record idxs n) = idxs ∧
    decode_record chars order (encode_record idxs n) =
      (((idxs.filter fun j => 2 < j).map fun j => chars.getD j.toNat []).flatten,
        n) := by
  have hidx : decode_indices order (encode_record idxs n) = idxs := by
    unfold decode_indices
    apply List.ext_getElem
    · simp [ho]
    · intro j h1 h2
      rw [List.getElem_map, List.getElem_range]
      have hjo : j < order := by simpa using h1
      rw [encode_record]
      rw [flatten_chunk (idxs.map encode_i) (encode_l n)
        (by intro ch hc; rcases List.mem_map.mp hc with ⟨x, _, hx'⟩
            rw [← hx']; exact encode_i_length x)
        j (by simpa [ho] using hjo)]
      have hj' : j < idxs.length := by omega
      rw [List.getD_eq_getElem?_getD, List.getElem?_map,
        List.getElem?_eq_getElem hj']
      simp only [Option.map_some', Option.getD_some]
      exact unpack_i_encode_i _ (hx _ (List.getElem_mem hj')).1
        (hx _ (List.getElem_mem hj')).2
  have hcount : unpack_l ((encode_record idxs n).drop
      ((encode_record idxs n).length - 8)) = n := by
    rw [encode_record_length]
    have hdrop : (encode_record idxs n).drop (4 * idxs.length + 8 - 8) =
        encode_l n := by
      rw [encode_record]
      have h48 : 4 * idxs.length + 8 - 8 = (idxs.map encode_i).flatten.length := by
        rw [flatten_encode_length]; omega
      rw [h48, List.drop_left]
    rw [hdrop]
    exact unpack_l_encode_l n hn1 hn2
  exact ⟨hidx, by rw [decode_record, hidx, hcount, decode_chars]⟩

/-- Witness for claim C6: the order-3 record with indices `[3, 1, 4]` and
count 7 over the vocabulary `chars6` decodes to the index list `[3, 1, 4]`
and the two-character string de (the sentinel index 1 is skipped, so the
decoded string is shorter than the order). -/
theorem claim_C6_witness :
    decode_indices 3 (encode_record [3, 1, 4] 7) = [3, 1, 4] ∧
    decode_record chars6 3 (encode_record [3, 1, 4] 7) = (['d', 'e'], 7) ∧
    (['d', 'e'] : Str).length < 3 := by
  have h := claim_C6_sentinel_skipping_decode chars6 [3, 1, 4] 7 3 rfl
    (by decide) (by decide) (by decide)
  exact ⟨h.1, h.2.trans (by decide), by decide⟩

/-! ## Membership in the PMI filter output -/

theorem mem_processEntry_foldl (ngrams : List (List (Str × ℚ))) (total : ℚ)
    (min_pmi : List ℝ) (i : ℕ) (l : List (Str × ℚ)) (s : Set Str) (w : Str) :
    w ∈ l.foldl (processEntry ngrams total min_pmi i) s ↔
      w ∈ s ∨ ∃ p ∈ l, w = p.1 ∧
        Real.log (pmiOf ngrams total i p.1 p.2) ≥ min_pmi.getD i 0 := by
  induction l generalizing s with
  | nil => simp
  | cons p rest ih =>
    rw [List.foldl_cons, ih]
    simp only [processEntry, Set.mem_union, Set.mem_setOf_eq, List.mem_cons]
    constructor
    · rintro ((hs | hp) | ⟨q, hq, hw⟩)
      · exact Or.inl hs
      · exact Or.inr ⟨p, Or.inl rfl, hp⟩
      · exact Or.inr ⟨q, Or.inr hq, hw⟩
    · rintro (hs | ⟨q, hq | hq, hw⟩)
      · exact Or.inl (Or.inl hs)
      · exact Or.inl (Or.inr (hq ▸ hw))
      · exact Or.inr ⟨q, hq, hw⟩

theorem mem_filter_ngrams_aux (ngrams : List (List (Str × ℚ))) (total : ℚ)
    (min_pmi : List ℝ) (is : List ℕ) (s : Set Str) (w : Str) :
    w ∈ is.foldl
        (fun s i => (ngrams.getD i []).foldl (processEntry ngrams total min_pmi i) s) s ↔
      w ∈ s ∨ ∃ i ∈ is, ∃ p ∈ ngrams.getD i [], w = p.1 ∧
        Real.log (pmiOf ngrams total i p.1 p.2) ≥ min_pmi.getD i 0 := by
  induction is generalizing s with
  | nil => simp
  | cons i rest ih =>
    rw [List.foldl_cons, ih, mem_processEntry_foldl]
    simp only [List.mem_cons]
    constructor
    · rintro ((hs | ⟨p, hp, hw⟩) | ⟨i', hi', hrest⟩)
      · exact Or.inl hs
      · exact Or.inr ⟨i, Or.inl rfl, p, hp, hw⟩
      · exact Or.inr ⟨i', Or.inr hi', hrest⟩
    · rintro (hs | ⟨i', hi' | hi', hrest⟩)
      · exact Or.inl (Or.inl hs)
      · exact Or.inl (Or.inr (hi' ▸ hrest))
      · exact Or.inr ⟨i', hi', hrest⟩

theorem mem_filter_ngrams (ngrams : List (List (Str × ℚ))) (total : ℚ)
    (min_pmi : List ℝ) (w : Str) :
    w ∈ filter_ngrams ngrams total min_pmi ↔
      ∃ i ∈ downTo ngrams.length, ∃ p ∈ ngrams.getD i [], w = p.1 ∧
        Real.log (pmiOf ngrams total i p.1 p.2) ≥ min_pmi.getD i 0 := by
  rw [filter_ngrams, mem_filter_ngrams_aux]
  simp

theorem mem_downTo (n i : ℕ) : i ∈ downTo n ↔ 1 ≤ i ∧ i < n := by
  rw [downTo, List.mem_reverse, List.mem_range'_1]
  omega

theorem dict_nodup_value_eq {α : Type} {l : List (Str × α)}
    (h : (l.map Prod.fst).Nodup) {k : Str} {a b : α}
    (ha : (k, a) ∈ l) (hb : (k, b) ∈ l) : a = b := by
  induction l with
  | nil => simp at ha
  | cons p rest ih =>
    simp only [List.map_cons, List.nodup_cons] at h
    rcases List.mem_cons.mp ha with ha' | ha' <;>
      rcases List.mem_cons.mp hb with hb' | hb'
    · have hab := ha'.trans hb'.symm
      exact ((Prod.mk.injEq _ _ _ _).mp hab).2
    · exfalso
      apply h.1
      rw [← ha']
      exact List.mem_map.mpr ⟨(k, b), hb', rfl⟩
    · exfalso
      apply h.1
      rw [← hb']
      exact List.mem_map.mpr ⟨(k, a), ha', rfl⟩
    · exact ih h.2 ha' hb'

theorem pmiOf_eq_formula (ngrams : List (List (Str × ℚ))) (total : ℚ) (i : ℕ)
    (w : Str) (v : ℚ) :
    pmiOf ngrams total i w v =
      listMin ((List.range i).map fun j =>
        total * v / (lookupD ngrams j (w.take (j + 1)) total *
          lookupD ngrams (i - j - 1) (w.drop (j + 1)) total)) := by
  rw [pmiOf, pmiDenoms, List.map_map]
  rfl

theorem dictGet_mem {α : Type} (l : List (Str × α)) (key : Str) (v : α)
    (h : dictGet l key = some v) : (key, v) ∈ l := by
  induction l with
  | nil => simp [dictGet] at h
  | cons p rest ih =>
    obtain ⟨k', v'⟩ := p
    by_cases hk : k' = key
    · subst hk
      have heq : dictGet ((k', v') :: rest) k' = some v' := by
        simp [dictGet]
      rw [heq] at h
      injection h with h2
      subst h2
      exact List.mem_cons_self _ _
    · simp only [dictGet, if_neg hk] at h
      exact List.mem_cons_of_mem _ (ih h)

theorem lookupD_pos (ngrams : List (List (Str × ℚ))) (total : ℚ) (ht : 0 < total)
    (hpos : ∀ m ∈ ngrams, ∀ p ∈ m, 0 < p.2) (j : ℕ) (key : Str) :
    0 < lookupD ngrams j key total := by
  rw [lookupD]
  rcases getD_mem_or ngrams j [] with hm | hm
  · cases hg : dictGet (ngrams.getD j []) key with
    | none => simpa using ht
    | some v =>
      have hmem : (key, v) ∈ ngrams.getD j [] := dictGet_mem _ _ _ hg
      simpa using hpos _ hm _ hmem
  · rw [hm]
    simpa [dictGet] using ht

/-! ## Claim C2: the PMI retention rule -/

/-- Claim C2: under well-formed per-order maps (keys of map `i` have length
`i+1`, no duplicate keys), an entry `(w, v)` of `OrderCountMap[i]` for
`1 ≤ i ≤ order-1` is in the PMI filter output if and only if the natural
log of the minimum over split points `j` of
`total * v / (OrderCountMap[j][w[0:j+1]] * OrderCountMap[i-j-1][w[j+1:]])`
(absent substrings defaulting to `total`) reaches `threshold[i]`. -/
theorem claim_C2_pmi_filter_rule (ngrams : List (List (Str × ℚ))) (total : ℚ)
    (min_pmi : List ℝ)
    (hlen : ∀ j < ngrams.length, ∀ p ∈ ngrams.getD j [], p.1.length = j + 1)
    (hnd : ∀ j < ngrams.length, ((ngrams.getD j []).map Prod.fst).Nodup)
    (i : ℕ) (w : Str) (v : ℚ)
    (hi1 : 1 ≤ i) (hi2 : i < ngrams.length) (himp : i < min_pmi.length)
    (hw : (w, v) ∈ ngrams.getD i []) :
    w ∈ filter_ngrams ngrams total min_pmi ↔
      Real.log (listMin ((List.range i).map fun j =>
          total * v / (lookupD ngrams j (w.take (j + 1)) total *
            lookupD ngrams (i - j - 1) (w.drop (j + 1)) total))) ≥
        min_pmi.getD i 0 := by
  rw [mem_filter_ngrams]
  constructor
  · rintro ⟨i', hi', p, hp, hwp, hcond⟩
    rw [mem_downTo] at hi'
    have hlp : p.1.length = i' + 1 := hlen i' hi'.2 p hp
    have hlw : w.length = i + 1 := hlen i hi2 (w, v) hw
    have hii : i' = i := by rw [← hwp] at hlp; omega
    subst hii
    have hpmem : (w, p.2) ∈ ngrams.getD i' [] := by
      rw [hwp]
      simpa using hp
    have hv : p.2 = v := dict_nodup_value_eq (hnd i' hi'.2) hpmem hw
    rw [pmiOf_eq_formula, ← hwp, hv] at hcond
    exact hcond
  · intro hcond
    refine ⟨i, (mem_downTo _ _).mpr ⟨hi1, hi2⟩, (w, v), hw, rfl, ?_⟩
    rw [pmiOf_eq_formula]
    exact hcond

/-- Witness for claim C2 on `ngrams2` (total 4, thresholds `[0, 0]`): the
bigram ab with count 4 has minimum PMI `4*4/(2*2) = 4` and `log 4 ≥ 0`, so
it is in the filter output. -/
theorem claim_C2_witness :
    ['a', 'b'] ∈ filter_ngrams ngrams2 4 [(0 : ℝ), 0] := by
  have h := claim_C2_pmi_filter_rule ngrams2 4 [(0 : ℝ), 0] (by decide) (by decide)
    1 ['a', 'b'] 4 (by decide) (by decide) (by decide) (by decide)
  apply h.mpr
  have hval : listMin ((List.range 1).map fun j =>
      (4 : ℚ) * 4 / (lookupD ngrams2 j (['a', 'b'].take (j + 1)) 4 *
        lookupD ngrams2 (1 - j - 1) (['a', 'b'].drop (j + 1)) 4)) = 4 := by
    have h1 : List.range 1 = [0] := rfl
    rw [h1]
    simp only [List.map_cons, List.map_nil]
    rw [listMin]
    simp only [List.foldl_nil]
    norm_num [lookupD, ngrams2, dictGet]
  rw [hval]
  have hcast : (((4 : ℚ) : ℝ)) = (4 : ℝ) := by norm_cast
  have hgd : ([(0 : ℝ), 0].getD 1 0) = (0 : ℝ) := by simp
  rw [hcast, hgd]
  exact Real.log_nonneg (by norm_num)

/-! ## Claim C5: unigrams and the PMI filtering stage -/

/-- Counterexample to claim C5: the unigram a is counted in
`OrderCountMap[0]` of `ngrams0`, yet it is not retained through the PMI
filtering stage — the filter output for `ngrams0` does not contain it (the
outer loop never visits order index 0). -/
theorem claim_C5_counterexample :
    ((['a'], (1 : ℚ)) ∈ ngrams0.getD 0 []) ∧
      ['a'] ∉ filter_ngrams ngrams0 1 [(0 : ℝ), 0] := by
  refine ⟨by decide, ?_⟩
  rw [mem_filter_ngrams]
  rintro ⟨i, hi, p, hp, _, _⟩
  rw [mem_downTo] at hi
  have hi1 : i = 1 := by
    have : ngrams0.length = 2 := rfl
    omega
  subst hi1
  simp [ngrams0] at hp

/-- Claim C5 amended: the PMI filter never retains (nor examines) length-1
strings — under well-formed maps its output only holds strings of length at
least 2 — while length-1 candidates nevertheless reach the backward
validator (as single-character fragments of the tokenizer) and are retained
by it unconditionally. -/
theorem claim_C5_amended_unigram_passthrough (ngrams : List (List (Str × ℚ)))
    (total : ℚ) (min_pmi : List ℝ)
    (hlen : ∀ j < ngrams.length, ∀ p ∈ ngrams.getD j [], p.1.length = j + 1) :
    (∀ w ∈ filter_ngrams ngrams total min_pmi, 2 ≤ w.length) ∧
    (∀ (cands : List (Str × ℕ)) (ngs : List Str) (order : ℕ) (w : Str) (c : ℕ),
      w.length = 1 → (w, c) ∈ cands → (w, c) ∈ filter_vocab cands ngs order) := by
  constructor
  · intro w hw
    rw [mem_filter_ngrams] at hw
    obtain ⟨i, hi, p, hp, hwp, _⟩ := hw
    rw [mem_downTo] at hi
    have hlp : p.1.length = i + 1 := hlen i hi.2 p hp
    rw [hwp]
    omega
  · intro cands ngs order w c hw1 hwc
    rw [filter_vocab, List.mem_filter]
    refine ⟨hwc, ?_⟩
    have hlt : (w, c).1.length < 3 := show w.length < 3 by omega
    rw [if_pos hlt]

/-- Witness for claim C5 amended: on `ngrams2` the filter output contains
ab (length 2, consistent with the lower bound), and the length-1 candidate
b is retained by the backward validator whatever the accepted set. -/
theorem claim_C5_witness :
    2 ≤ (['a', 'b'] : Str).length ∧ (['b'], 5) ∈ filter_vocab [(['b'], 5)] [] 4 := by
  have h := claim_C5_amended_unigram_passthrough ngrams2 4 [(0 : ℝ), 0] (by decide)
  refine ⟨h.1 ['a', 'b'] ?_, h.2 [(['b'], 5)] [] 4 ['b'] 5 (by decide) (by decide)⟩
  rw [mem_filter_ngrams]
  refine ⟨1, (mem_downTo _ _).mpr (by constructor <;> decide), (['a', 'b'], 4),
    by decide, rfl, ?_⟩
  have hval : pmiOf ngrams2 4 1 ['a', 'b'] 4 = 4 := by
    rw [pmiOf, pmiDenoms]
    have h1 : List.range 1 = [0] := rfl
    rw [h1]
    simp only [List.map_cons, List.map_nil]
    rw [listMin]
    simp only [List.foldl_nil]
    norm_num [lookupD, ngrams2, dictGet]
  rw [hval]
  have hcast : (((4 : ℚ) : ℝ)) = (4 : ℝ) := by norm_cast
  have hgd : ([(0 : ℝ), 0].getD 1 0) = (0 : ℝ) := by simp
  rw [hcast, hgd]
  exact Real.log_nonneg (by norm_num)

/-! ## Claim C8: behaviour of the PMI filter when total is 0 -/

/-- Claim C8 evaluation (code bug): when `total` is 0 because no record
passed `min_count` — so every per-order map is empty — `filter_ngrams`
performs no check at all and silently returns the empty set, instead of
failing fast with a descriptive error as the spec requires. -/
theorem claim_C8_total_zero_silent_empty :
    filter_ngrams [[], []] 0 [(0 : ℝ), 0] = (∅ : Set Str) := by
  rfl

/-! ## Claim C9: denominators of the PMI computation -/

/-- Counterexample to claim C9: an input with `total = 1 > 0` on which the
PMI computation still examines a zero denominator — the entry `(ab, 1)` of
map 1 of `ngramsZ` is processed and its denominator list contains 0,
because the stored count of the unigram a is 0 (the default-to-total rule
only protects absent keys, not present keys with zero counts). -/
theorem claim_C9_counterexample :
    (0 : ℚ) < 1 ∧ ((['a', 'b'], (1 : ℚ)) ∈ ngramsZ.getD 1 []) ∧
      (0 : ℚ) ∈ pmiDenoms ngramsZ 1 1 ['a', 'b'] := by
  refine ⟨by norm_num, by decide, ?_⟩
  rw [pmiDenoms]
  have h1 : List.range 1 = [0] := rfl
  rw [h1]
  simp only [List.map_cons, List.map_nil, List.mem_singleton]
  norm_num [lookupD, ngramsZ, dictGet]

/-- Claim C9 amended: if `total > 0` and every count stored in the maps is
positive, then every denominator examined by the PMI computation is
nonzero (each factor is either a stored positive count or the positive
default `total`). -/
theorem claim_C9_amended_no_zero_denominator (ngrams : List (List (Str × ℚ)))
    (total : ℚ) (ht : 0 < total)
    (hpos : ∀ m ∈ ngrams, ∀ p ∈ m, 0 < p.2)
    (i : ℕ) (w : Str) :
    ∀ d ∈ pmiDenoms ngrams total i w, d ≠ 0 := by
  intro d hd
  rw [pmiDenoms] at hd
  rcases List.mem_map.mp hd with ⟨j, _, hdj⟩
  have h1 : 0 < lookupD ngrams j (w.take (j + 1)) total :=
    lookupD_pos ngrams total ht hpos j _
  have h2 : 0 < lookupD ngrams (i - j - 1) (w.drop (j + 1)) total :=
    lookupD_pos ngrams total ht hpos (i - j - 1) _
  rw [← hdj]
  exact ne_of_gt (mul_pos h1 h2)

/-- Witness for claim C9 amended: on `ngramsPos` (total 1, all stored
counts positive) the single denominator examined for the bigram ab is 1,
and it is nonzero. -/
theorem claim_C9_witness :
    ((1 : ℚ) ∈ pmiDenoms ngramsPos 1 1 ['a', 'b']) ∧ (1 : ℚ) ≠ 0 := by
  constructor
  · rw [pmiDenoms]
    have h1 : List.range 1 = [0] := rfl
    rw [h1]
    simp only [List.map_cons, List.map_nil, List.mem_singleton]
    norm_num [lookupD, ngramsPos, dictGet]
    decide
  · exact claim_C9_amended_no_zero_denominator ngramsPos 1 (by norm_num)
      (by decide) 1 ['a', 'b'] 1 (by
        rw [pmiDenoms]
        have h1 : List.range 1 = [0] := rfl
        rw [h1]
        simp only [List.map_cons, List.map_nil, List.mem_singleton]
        norm_num [lookupD, ngramsPos, dictGet]
        decide)

/-! ## Claim C3: the backward validator -/

/-- Claim C3: an entry `(w, c)` is retained (with its count) by the
backward validator if and only if it was a candidate and: `w` is shorter
than 3 characters (unconditional); or `w` has length in `[3, order]` and is
itself an accepted n-gram; or `w` is longer than `order` and every one of
its `len - order + 1` contiguous windows of length `order` is an accepted
n-gram. -/
theorem claim_C3_backward_validator_rule (cands : List (Str × ℕ))
    (ngs : List Str) (order : ℕ) (w : Str) (c : ℕ) :
    (w, c) ∈ filter_vocab cands ngs order ↔
      (w, c) ∈ cands ∧
        (w.length < 3 ∨
         (3 ≤ w.length ∧ w.length ≤ order ∧ w ∈ ngs) ∨
         (order < w.length ∧
           ∀ k < w.length - order + 1, (w.drop k).take order ∈ ngs)) := by
  rw [filter_vocab, List.mem_filter]
  dsimp only
  apply and_congr_right
  intro _
  constructor
  · intro hb
    by_cases h1 : w.length < 3
    · exact Or.inl h1
    · rw [if_neg h1] at hb
      by_cases h2 : w.length ≤ order ∧ w ∈ ngs
      · exact Or.inr (Or.inl ⟨by omega, h2.1, h2.2⟩)
      · rw [if_neg h2] at hb
        by_cases h3 : order < w.length
        · rw [if_pos h3] at hb
          refine Or.inr (Or.inr ⟨h3, ?_⟩)
          have hall := of_decide_eq_true hb
          intro k hk
          exact hall k (by omega)
        · rw [if_neg h3] at hb
          exact absurd hb (by simp)
  · intro hcase
    by_cases h1 : w.length < 3
    · rw [if_pos h1]
    · rcases hcase with h1' | ⟨h3, h2, hmem⟩ | ⟨h3, hwin⟩
      · exact absurd h1' h1
      · rw [if_neg h1, if_pos ⟨h2, hmem⟩]
      · rw [if_neg h1]
        rw [if_neg (show ¬(w.length ≤ order ∧ w ∈ ngs) from
          fun hcon => absurd hcon.1 (by omega))]
        rw [if_pos h3]
        apply decide_eq_true
        intro k hk
        exact hwin k (by omega)

/-! ## Lemmas about the tokenizer (claims C1, C10) -/

theorem scanFrom_le (l : List Char) :
    ∀ (t : SimpleTrie) (pos e : ℕ), e ≤ scanFrom t l pos e := by
  induction l with
  | nil => intro t pos e; rw [scanFrom]
  | cons c cs ih =>
    intro t pos e
    rw [scanFrom]
    cases h : childGet t.children c with
    | none => exact le_refl e
    | some t' =>
      refine le_trans ?_ (ih t' (pos + 1) _)
      split
      · omega
      · exact le_refl e

theorem pySlice_append_drop (sent : Str) (start i : ℕ) (h : start ≤ i) :
    pySlice sent start i ++ sent.drop i = sent.drop start := by
  rw [pySlice]
  have h1 : sent.drop i = (sent.drop start).drop (i - start) := by
    rw [List.drop_drop]
    congr 1
    omega
  rw [h1]
  exact List.take_append_drop _ _

theorem pySlice_of_le (sent : Str) (start e : ℕ) (h1 : sent.length ≤ e)
    (h2 : start ≤ sent.length) :
    pySlice sent start e = sent.drop start := by
  rw [pySlice]
  apply List.take_of_length_le
  rw [List.length_drop]
  omega

theorem tokenizeAux_flatten (root : SimpleTrie) (sent : Str) :
    ∀ (rest : List Char) (i start e : ℕ) (res : List Str),
      start ≤ i → i ≤ e → i + rest.length = sent.length →
      (tokenizeAux root sent rest i start e res).flatten =
        res.flatten ++ sent.drop start := by
  intro rest
  induction rest with
  | nil =>
    intro i start e res h1 h2 h3
    simp only [List.length_nil] at h3
    rw [tokenizeAux, List.flatten_append]
    simp only [List.flatten_cons, List.flatten_nil, List.append_nil]
    congr 1
    exact pySlice_of_le sent start e (by omega) (by omega)
  | cons c rest ih =>
    intro i start e res h1 h2 h3
    rw [tokenizeAux]
    by_cases hie : i = e
    · rw [if_pos hie]
      rw [ih (i + 1) i _ _ (by omega) (scanFrom_le _ _ _ _) (by simp at h3 ⊢; omega)]
      rw [List.flatten_append]
      simp only [List.flatten_cons, List.flatten_nil, List.append_nil,
        List.append_assoc]
      congr 1
      subst hie
      exact pySlice_append_drop sent start i h1
    · rw [if_neg hie]
      exact ih (i + 1) start _ res (by omega)
        (le_trans (by omega) (scanFrom_le _ _ _ _)) (by simp at h3 ⊢; omega)

theorem tokenizeAux_ne_nil (root : SimpleTrie) (sent : Str) :
    ∀ (rest : List Char) (i start e : ℕ) (res : List Str),
      start ≤ i → i ≤ e → start < e → start < sent.length →
      i + rest.length = sent.length →
      (∀ f ∈ res, f ≠ []) →
      ∀ f ∈ tokenizeAux root sent rest i start e res, f ≠ [] := by
  intro rest
  induction rest with
  | nil =>
    intro i start e res h1 h2 h3 h4 h5 hres f hf
    simp only [List.length_nil] at h5
    rw [tokenizeAux] at hf
    rcases List.mem_append.mp hf with hf | hf
    · exact hres f hf
    · rw [List.mem_singleton] at hf
      subst hf
      rw [pySlice]
      intro hnil
      rcases List.take_eq_nil_iff.mp hnil with hz | hz
      · omega
      · rw [List.drop_eq_nil_iff] at hz
        omega
  | cons c rest ih =>
    intro i start e res h1 h2 h3 h4 h5 hres f hf
    rw [tokenizeAux] at hf
    by_cases hie : i = e
    · rw [if_pos hie] at hf
      refine ih (i + 1) i _ _ (by omega) (scanFrom_le _ _ _ _)
        (lt_of_lt_of_le (by omega) (scanFrom_le _ _ _ _))
        (by simp at h5; omega) (by simp at h5 ⊢; omega) ?_ f hf
      intro g hg
      rcases List.mem_append.mp hg with hg | hg
      · exact hres g hg
      · rw [List.mem_singleton] at hg
        subst hg
        rw [pySlice]
        intro hnil
        rcases List.take_eq_nil_iff.mp hnil with hz | hz
        · omega
        · rw [List.drop_eq_nil_iff] at hz
          omega
    · rw [if_neg hie] at hf
      exact ih (i + 1) start _ res (by omega)
        (le_trans (by omega) (scanFrom_le _ _ _ _))
        (lt_of_lt_of_le h3 (scanFrom_le _ _ _ _)) h4
        (by simp at h5 ⊢; omega) hres f hf

/-! ## Claim C10: tokenization is a partition of the sentence -/

/-- Claim C10: for every trie and every sentence, concatenating the
fragments returned by `tokenize`, in order, reproduces exactly the original
sentence; and when the sentence is non-empty, every returned fragment is
non-empty. -/
theorem claim_C10_tokenize_partition (root : SimpleTrie) (sent : Str) :
    (root.tokenize sent).flatten = sent ∧
      (sent ≠ [] → ∀ f ∈ root.tokenize sent, f ≠ []) := by
  constructor
  · have h := tokenizeAux_flatten root sent sent 0 0 1 []
      (le_refl 0) (by omega) (by simp)
    simpa [SimpleTrie.tokenize] using h
  · intro hne
    have hlen : 0 < sent.length := List.length_pos.mpr hne
    exact tokenizeAux_ne_nil root sent sent 0 0 1 [] (le_refl 0) (by omega)
      (by omega) hlen (by simp) (by simp)

/-- Witness for claim C10 at a concrete input: tokenizing there with the
trie over the, there, here concatenates back to the sentence, and the
concrete fragment produced is non-empty. -/
theorem claim_C10_witness :
    (trieTHH.tokenize ['t', 'h', 'e', 'r', 'e']).flatten =
        ['t', 'h', 'e', 'r', 'e'] ∧
      (['t', 'h', 'e', 'r', 'e'] : Str) ≠ [] := by
  refine ⟨(claim_C10_tokenize_partition trieTHH ['t', 'h', 'e', 'r', 'e']).1, ?_⟩
  exact (claim_C10_tokenize_partition trieTHH ['t', 'h', 'e', 'r', 'e']).2
    (by decide) ['t', 'h', 'e', 'r', 'e'] (by decide)

/-! ## Claim C1: the two concrete tokenization examples -/

/-- Counterexample to claim C1: with the trie holding exactly the and
there, tokenizing thereby does not return the two fragments there, by —
the code emits each unmatched trailing character as its own fragment. -/
theorem claim_C1_counterexample :
    trieTT.tokenize ['t', 'h', 'e', 'r', 'e', 'b', 'y'] ≠
      [['t', 'h', 'e', 'r', 'e'], ['b', 'y']] := by
  decide

/-- Claim C1 amended: with the trie over the, there, here, tokenizing
there yields the single fragment there (longest overlap wins); with the
trie over the, there only, tokenizing thereby yields there, b, y — the
unmatched tail is emitted character by character, not as the single
fragment by. -/
theorem claim_C1_amended_tokenize_examples :
    trieTHH.tokenize ['t', 'h', 'e', 'r', 'e'] = [['t', 'h', 'e', 'r', 'e']] ∧
    trieTT.tokenize ['t', 'h', 'e', 'r', 'e', 'b', 'y'] =
      [['t', 'h', 'e', 'r', 'e'], ['b'], ['y']] := by
  decide
